import Mathlib

/-!
Verification of the Code Map & Lens Engine of the `understand-first` repository.

The Python sources embedded here are:
* `cli/ucli/lens/lens.py` — `_neighbors`, `lens_from_seeds`, `lens_from_issue`,
  `merge_trace_into_lens`, `rank_by_error_proximity`;
* `cli/ucli/analyzers/python_analyzer.py` — `_parse_file`, `_open_cache`,
  `build_python_map`, `_file_signature`.

Modelling conventions: Python dicts become association lists (insertion order
preserved); Python sets become deduplicated lists or `Finset`s (iteration order
of a set is unspecified in Python, so set-ordered results are abstracted up to
order); missing dict keys become `Option` fields; float scores become `ℚ`
(Python's `round(x, 3)` on floats is modelled by rational rounding to the
nearest thousandth); `sqlite3` cache failures become an `Except` error channel.
-/

/-! ### String utilities modelling Python string operations -/

/-- Model of checking that the first list is a prefix of the second
(Python slice comparison). -/
def hasPre : List Char → List Char → Bool
  | [], _ => true
  | _ :: _, [] => false
  | a :: as, b :: bs => a == b && hasPre as bs

/-- Model of list containment: `n` occurs contiguously inside the second list. -/
def hasSub (n : List Char) : List Char → Bool
  | [] => hasPre n []
  | b :: bs => hasPre n (b :: bs) || hasSub n bs

/-- Model of Python's substring test `needle in hay`. -/
def occursIn (needle hay : String) : Bool :=
  hasSub needle.toList hay.toList

/-- Model of Python's `s.endswith(suffix)`. -/
def endsWithStr (s suffix : String) : Bool :=
  hasPre suffix.toList.reverse s.toList.reverse

/-- Auxiliary scan keeping the characters seen since the last `':'`. -/
def lastSegAux (acc : List Char) : List Char → List Char
  | [] => acc
  | c :: cs => if c == ':' then lastSegAux [] cs else lastSegAux (acc ++ [c]) cs

/-- Model of Python's `q.split(":")[-1]`: the last `":"`-delimited segment. -/
def lastSeg (q : String) : String :=
  ⟨lastSegAux [] q.toList⟩

/-- Model of Python's `set(s)` on a string: its set of characters. -/
def charSet (s : String) : Finset Char := s.toList.toFinset

/-! ### Data model: the JSON document shapes of §6 of the spec.

A missing dict key is `none`; a present key is `some`. -/

/-- One function record of a CodeMap / Lens document
(`{"file": ..., "calls": [...], "runtime_hit": ..., "error_proximity": ...}`). -/
structure FnRec where
  file : Option String
  calls : Option (List String)
  runtime_hit : Option Bool
  error_proximity : Option ℚ
deriving DecidableEq

/-- A CodeMap document: language tag plus the qualified-name keyed function
dict (modelled as an association list in insertion order). -/
structure CodeMapModel where
  language : String
  functions : List (String × FnRec)
deriving DecidableEq

/-- A Lens document.  `lensSeeds` models the `"seeds"` list nested under the
`"lens"` key (absent when that path is missing), `functions` the function dict,
`runtime` the `"hit_count"` value under the `"runtime"` key. -/
structure LensDoc where
  lensSeeds : Option (List String)
  functions : Option (List (String × FnRec))
  runtime : Option Nat
deriving DecidableEq

/-- One trace event (`{"type": ..., "func": ..., "file": ...}`). -/
structure EventDoc where
  typ : Option String
  func : Option String
  file : Option String
deriving DecidableEq

/-- A Trace document. -/
structure TraceDoc where
  events : Option (List EventDoc)
  duration_sec : Option ℚ
deriving DecidableEq

/-! ### Lens engine: `_neighbors`, `lens_from_seeds`, `lens_from_issue` -/

/-- `any(tok in q for tok in seed_keys)` — initial membership test. -/
def seedHitB (seeds : List String) (q : String) : Bool :=
  seeds.any (fun tok => occursIn tok q)

/-- Initial kept set of `_neighbors`: every key of `functions` that some seed
string occurs in. -/
def initKeep (fns : List (String × FnRec)) (seeds : List String) : Finset String :=
  (fns.map Prod.fst).toFinset.filter (fun q => seedHitB seeds q = true)

/-- Forward condition of one `_neighbors` hop: `q2` is added because some kept
function has a callee `c` with `q2.endswith(":" + c)` or `c in q2`. -/
def fwdB (fns : List (String × FnRec)) (keep : Finset String) (q2 : String) : Bool :=
  fns.any (fun kv => decide (kv.1 ∈ keep) &&
    (kv.2.calls.getD []).any (fun c => endsWithStr q2 (":" ++ c) || occursIn c q2))

/-- Else-branch condition of one `_neighbors` hop: a not-yet-kept `q` is added
because `any(c in q for k in keep for c in functions[k].get("calls", []))`.
(`keep` is always a subset of the dict keys, so the Python `functions[k]`
lookup never fails; iterating dict entries filtered by membership models it.) -/
def bwdB (fns : List (String × FnRec)) (keep : Finset String) (q : String) : Bool :=
  !(decide (q ∈ keep)) && fns.any (fun kv => decide (kv.1 ∈ keep) &&
    (kv.2.calls.getD []).any (fun c => occursIn c q))

/-- One hop of `_neighbors`: `new = set(keep)` plus every added key. -/
def stepKeep (fns : List (String × FnRec)) (keep : Finset String) : Finset String :=
  keep ∪ (fns.map Prod.fst).toFinset.filter (fun q => (fwdB fns keep q || bwdB fns keep q) = true)

/-- The kept set after the given number of hops of `_neighbors`. -/
def keepAfter (fns : List (String × FnRec)) (seeds : List String) : Nat → Finset String
  | 0 => initKeep fns seeds
  | n + 1 => stepKeep fns (keepAfter fns seeds n)

/-- Result of `_neighbors`: the sub-dict of `functions` on the kept keys
(Python builds it by iterating the kept *set*, whose order is unspecified; the
model keeps the dict order, which has the same key set and records). -/
def neighborsFns (fns : List (String × FnRec)) (seeds : List String) (hops : Nat) :
    List (String × FnRec) :=
  fns.filter (fun kv => decide (kv.1 ∈ keepAfter fns seeds hops))

/-- `lens_from_seeds`: dedup the seeds (`set(seeds)`), run `_neighbors`,
return `{"lens": {"seeds": ...}, "functions": ...}`. -/
def lensFromSeeds (seeds : List String) (repoMap : CodeMapModel) (hops : Nat) : LensDoc :=
  let seedKeys := seeds.dedup
  { lensSeeds := some seedKeys
    functions := some (neighborsFns repoMap.functions seedKeys hops)
    runtime := none }

/-- The seed fallback of `lens_from_issue`: rank all functions by outbound
call count descending (stable, like Python's `sorted(..., reverse=True)` on a
stable sort) and take the top 10 qualified names. -/
def fallbackRanked (fns : List (String × FnRec)) : List String :=
  ((fns.mergeSort (fun a b =>
      decide ((b.2.calls.getD []).length ≤ (a.2.calls.getD []).length))).take 10).map Prod.fst

/-- `lens_from_issue` after `_extract_candidates`: the regex extraction over
the issue file is external I/O, so the body is parametrised by the extracted
candidate list; if it is empty the ranked fallback supplies the seeds. -/
def lensFromIssueWith (candidates : List String) (repoMap : CodeMapModel) (hops : Nat) :
    LensDoc :=
  let seeds := if candidates.isEmpty then fallbackRanked repoMap.functions else candidates
  let seedKeys := seeds.dedup
  { lensSeeds := some seedKeys
    functions := some (neighborsFns repoMap.functions seedKeys hops)
    runtime := none }

/-! ### Trace merger: `merge_trace_into_lens` -/

/-- The hit set `{e.get("func") for e in trace.get("events", []) if "func" in e}`,
as a deduplicated list (set order abstracted). -/
def hitsOf (t : TraceDoc) : List String :=
  ((t.events.getD []).filterMap (fun e => e.func)).dedup

/-- Per-entry update of `merge_trace_into_lens`: set `runtime_hit` to `True`
when the short name or the qualified name is in the hit set. -/
def markHit (hits : List String) (kv : String × FnRec) : String × FnRec :=
  if hits.contains (lastSeg kv.1) || hits.contains kv.1
  then (kv.1, { kv.2 with runtime_hit := some true }) else kv

/-- `merge_trace_into_lens`: mark hit functions and set
`lens["runtime"] = {"hit_count": len(hits)}`.  A missing `"functions"` key
stays missing (`lens.get("functions", {})` yields a fresh dict the loop
mutates without attaching it). -/
def mergeTraceIntoLens (l : LensDoc) (t : TraceDoc) : LensDoc :=
  let hits := hitsOf t
  { l with
    functions := l.functions.map (fun fns => fns.map (markHit hits))
    runtime := some hits.length }

/-! ### Relevance ranker: `rank_by_error_proximity` -/

/-- Jaccard overlap of two character sets with `|A∪B| = 0` treated as
denominator 1 (Python's `len(...) or 1`). -/
def jacc (a b : Finset Char) : ℚ :=
  ((a ∩ b).card : ℚ) / (max (a ∪ b).card 1 : ℚ)

/-- Python `round(x, 3)` modelled on rationals: round `1000 * x` to the
nearest integer and divide by 1000 (ties, which Python resolves to even,
do not occur in any statement below). -/
def round3 (x : ℚ) : ℚ := (round (1000 * x) : ℤ) / 1000

/-- Score accumulation of `rank_by_error_proximity` for one function, as the
Python loop computes it: `+2.0` on a seed substring match, `+1.5` on a truthy
`runtime_hit`, then for each seed `+0.5 * jaccard(set(name), set(s))` over the
characters of the short name and of the *whole* seed string. -/
def rankScore (seeds : List String) (q : String) (m : FnRec) : ℚ :=
  let name := lastSeg q
  let s0 : ℚ := 0
  let s1 := if seeds.any (fun s => occursIn s q) then s0 + 2 else s0
  let s2 := if m.runtime_hit = some true then s1 + 3 / 2 else s1
  seeds.foldl (fun acc s => acc + 1 / 2 * jacc (charSet name) (charSet s)) s2

/-- Per-entry update of `rank_by_error_proximity`:
`meta["error_proximity"] = round(score, 3)`. -/
def rankEntry (seeds : List String) (kv : String × FnRec) : String × FnRec :=
  (kv.1, { kv.2 with error_proximity := some (round3 (rankScore seeds kv.1 kv.2)) })

/-- `rank_by_error_proximity` (the Python function mutates the lens in place;
the model returns the mutated document).  Seeds are the deduplicated
`lens.get("lens", {}).get("seeds", [])`. -/
def rankByErrorProximity (l : LensDoc) : LensDoc :=
  let seeds := (l.lensSeeds.getD []).dedup
  { l with functions := l.functions.map (fun fns => fns.map (rankEntry seeds)) }

/-! ### Source scanner: `python_analyzer.py` -/

/-- The on-disk state of one source file at scan time (`st_mtime` and the byte
content, from which `st_size` and the digest are computed). -/
structure FileState where
  mtime : Int
  content : String
deriving DecidableEq

/-- One row of the sqlite cache table
`files (path, mtime, size, sha, data)`, with `data` already deserialized. -/
structure CacheRow where
  mtime : Int
  size : Nat
  sha : Nat
  data : List (String × FnRec)
deriving DecidableEq

/-- `file_path.with_suffix("")` for candidate files (which always end in
`.py`, by `_is_code_file`). -/
def stripPy (p : String) : String :=
  if endsWithStr p ".py" then ⟨p.toList.take (p.toList.length - 3)⟩ else p

/-- The deterministic qualified name `qn`: `<path-without-extension>:<func>`. -/
def qn (p func : String) : String := stripPy p ++ ":" ++ func

/-- Keying a per-file parse result by qualified names
(`functions[qn(file_path, func)] = meta`). -/
def qualifyRecords (p : String) (recs : List (String × FnRec)) : List (String × FnRec) :=
  recs.map (fun fm => (qn p fm.1, fm.2))

/-- Dict lookup in the preloaded cache (`cache.get(str(path))`). -/
def lookupRow (rows : List (String × CacheRow)) (p : String) : Option CacheRow :=
  (rows.find? (fun r => r.1 == p)).map Prod.snd

/-- The reuse test `row[0] == mtime and row[1] == size and row[2] == sha`
against the freshly computed `_file_signature`. -/
def sigMatches (hash : String → Nat) (row : CacheRow) (st : FileState) : Bool :=
  row.mtime == st.mtime && row.size == st.content.length && row.sha == hash st.content

/-- The cache row written back for a freshly parsed file
(`REPLACE INTO files(path, mtime, size, sha, data)`). -/
def freshRow (hash : String → Nat) (parse : String → String → List (String × FnRec))
    (p : String) (st : FileState) : CacheRow :=
  ⟨st.mtime, st.content.length, hash st.content, parse p st.content⟩

/-- Per-file step of `build_python_map` with caching on: on a signature match
the stored records are reused and nothing is written; otherwise the file is
re-parsed and a replacement row is produced.  `parse` abstracts `_parse_file`
(path and content in, per-function records out). -/
def processFile (hash : String → Nat) (parse : String → String → List (String × FnRec))
    (rows : List (String × CacheRow)) (p : String) (st : FileState) :
    List (String × FnRec) × Option CacheRow :=
  match lookupRow rows p with
  | some row =>
    if sigMatches hash row st then (qualifyRecords p row.data, none)
    else (qualifyRecords p (parse p st.content), some (freshRow hash parse p st))
  | none => (qualifyRecords p (parse p st.content), some (freshRow hash parse p st))

/-- The backing store behind `_open_cache`: either a readable table of rows or
an unavailable/corrupt sqlite file. -/
inductive CacheStore
  | ok (rows : List (String × CacheRow))
  | corrupt

/-- `_open_cache` plus the initial `SELECT` loop: on a corrupt or unavailable
store, `sqlite3` raises (modelled as the error channel); `build_python_map`
installs no handler around it. -/
def openCacheModel : CacheStore → Except String (List (String × CacheRow))
  | .ok rows => .ok rows
  | .corrupt => .error "cache unavailable or corrupt"

/-- `build_python_map` over an already enumerated candidate file list: with
caching on, cache hits contribute their stored records first (in walk order)
and the remaining `work` files are parsed and appended afterwards, exactly as
the two loops of the source do; with caching off every file is parsed.  A
parse failure is modelled inside `parse` (it returns `{}` for such a file). -/
def buildPythonMap (hash : String → Nat) (parse : String → String → List (String × FnRec))
    (files : List (String × FileState)) (useCache : Bool) (store : CacheStore) :
    Except String CodeMapModel :=
  if useCache then
    match openCacheModel store with
    | .error e => .error e
    | .ok rows =>
      let per := files.map (fun pf => processFile hash parse rows pf.1 pf.2)
      let cachedPart := ((per.filter (fun r => r.2.isNone)).map Prod.fst).flatten
      let freshPart := ((per.filter (fun r => r.2.isSome)).map Prod.fst).flatten
      .ok ⟨"python", cachedPart ++ freshPart⟩
  else
    .ok ⟨"python", (files.map (fun pf => qualifyRecords pf.1 (parse pf.1 pf.2.content))).flatten⟩

/-! ### The `_parse_file` visitor over a model Python AST.

The modelled fragment has name/attribute/call expressions and
function-definition/expression statements; this is the part of the grammar the
visitor's three methods (`visit_FunctionDef`, `visit_Call`, `generic_visit`)
distinguish. -/

mutual
inductive PyExpr where
  | ename (id : String)
  | eattr (base : PyExpr) (attrName : String)
  | ecall (fn : PyExpr) (args : PyExprList)
inductive PyExprList where
  | enil
  | econs (e : PyExpr) (t : PyExprList)
end

mutual
inductive PyStmt where
  | sfun (name : String) (body : PyStmtList)
  | sexpr (e : PyExpr)
inductive PyStmtList where
  | snil
  | scons (s : PyStmt) (t : PyStmtList)
end

/-- The bare callee name of a call's `func` expression: the identifier for a
`Name`, the trailing attribute for an `Attribute`, nothing otherwise. -/
def calleeName : PyExpr → Option String
  | .ename id => some id
  | .eattr _ a => some a
  | .ecall _ _ => none

/-- The visitor's `calls_by_func` dict: function name to collected calls. -/
abbrev CallsAcc := List (String × List String)

/-- `calls_by_func[current_func] = []` (reset in place, keeping dict position,
or insert at the end). -/
def setEntry (acc : CallsAcc) (name : String) : CallsAcc :=
  if acc.any (fun kv => kv.1 == name)
  then acc.map (fun kv => if kv.1 == name then (kv.1, []) else kv)
  else acc ++ [(name, [])]

/-- `calls_by_func[current_func].append(callee)`.  The visitor only appends
while `current_func` is set, and setting it always creates the entry, so the
entry is present whenever this runs. -/
def appendCall (acc : CallsAcc) (name nm : String) : CallsAcc :=
  acc.map (fun kv => if kv.1 == name then (kv.1, kv.2 ++ [nm]) else kv)

mutual
/-- Expression traversal of the visitor (`visit_Call` plus `generic_visit`):
a call records its bare callee name under the current function, then its
`func` child and its arguments are visited in field order.  Expressions never
change `current_func`. -/
def visitExprV (cur : Option String) (acc : CallsAcc) : PyExpr → CallsAcc
  | .ename _ => acc
  | .eattr b _ => visitExprV cur acc b
  | .ecall f args =>
    let acc1 := match cur, calleeName f with
      | some c, some nm => appendCall acc c nm
      | _, _ => acc
    visitExprListV cur (visitExprV cur acc1 f) args
def visitExprListV (cur : Option String) (acc : CallsAcc) : PyExprList → CallsAcc
  | .enil => acc
  | .econs e t => visitExprListV cur (visitExprV cur acc e) t
end

mutual
/-- Statement traversal of the visitor.  `visit_FunctionDef` sets
`current_func` to its own name, initialises its entry, visits the body, and
then sets `current_func = None` — it does *not* restore the enclosing
function. -/
def visitStmtV (cur : Option String) (acc : CallsAcc) : PyStmt → Option String × CallsAcc
  | .sexpr e => (cur, visitExprV cur acc e)
  | .sfun name body =>
    let acc1 := setEntry acc name
    (none, (visitStmtListV (some name) acc1 body).2)
def visitStmtListV (cur : Option String) (acc : CallsAcc) : PyStmtList → Option String × CallsAcc
  | .snil => (cur, acc)
  | .scons s t =>
    let r := visitStmtV cur acc s
    visitStmtListV r.1 r.2 t
end

/-- `_parse_file` on a successfully parsed module: run the visitor over the
top-level statements with no current function, then attach the file path to
every collected record. -/
def parsePyFile (path : String) (prog : PyStmtList) : List (String × FnRec) :=
  (visitStmtListV none [] prog).2.map (fun fc => (fc.1, ⟨some path, some fc.2, none, none⟩))

/-! Textual call collectors (the reading of the spec sentence: every call
expression textually inside a function's body, in order). -/

mutual
def callsExpr : PyExpr → List String
  | .ename _ => []
  | .eattr b _ => callsExpr b
  | .ecall f args => (calleeName f).toList ++ callsExpr f ++ callsExprList args
def callsExprList : PyExprList → List String
  | .enil => []
  | .econs e t => callsExpr e ++ callsExprList t
end

mutual
def callsStmt : PyStmt → List String
  | .sfun _ body => callsStmtList body
  | .sexpr e => callsExpr e
def callsStmtList : PyStmtList → List String
  | .snil => []
  | .scons s t => callsStmt s ++ callsStmtList t
end

mutual
def noDefsStmt : PyStmt → Bool
  | .sfun _ _ => false
  | .sexpr _ => true
def noDefsStmts : PyStmtList → Bool
  | .snil => true
  | .scons s t => noDefsStmt s && noDefsStmts t
end

/-! ### Helper lemmas -/

theorem filter_length_mono {α : Type} {p q : α → Bool} (l : List α)
    (h : ∀ a, p a = true → q a = true) : (l.filter p).length ≤ (l.filter q).length := by
  induction l with
  | nil => simp
  | cons a t ih =>
    by_cases hp : p a = true
    · simp [List.filter, hp, h a hp, Nat.succ_le_succ ih]
    · have : (t.filter p).length ≤ ((a :: t).filter q).length := by
        cases hq : q a <;> simp [List.filter, hq] <;> omega
      simpa [List.filter, hp] using this

theorem foldl_add_sum {α : Type} (f : α → ℚ) (l : List α) (a : ℚ) :
    l.foldl (fun acc s => acc + f s) a = a + (l.map f).sum := by
  induction l generalizing a with
  | nil => simp
  | cons x xs ih => simp [ih, add_assoc]

/-- The keys of the function dict of a Lens document. -/
def lensKeys (l : LensDoc) : Option (List String) :=
  l.functions.map (fun fns => fns.map Prod.fst)

theorem markHit_fst (hits : List String) (kv : String × FnRec) :
    (markHit hits kv).1 = kv.1 := by
  unfold markHit; split <;> rfl

theorem markHit_idem (hits : List String) (kv : String × FnRec) :
    markHit hits (markHit hits kv) = markHit hits kv := by
  by_cases hc : lastSeg kv.1 ∈ hits ∨ kv.1 ∈ hits
  · simp [markHit, hc]
  · simp [markHit, hc]

/-! ### C8 -/

/-- C8: for every code map, seed set and hop count `h ≥ 0`, the lens built
with `h` hops has at most as many functions as the lens built with `h + 1`
hops; the kept set only grows from one hop to the next, and the `h + 1`-hop
kept set is literally one more `stepKeep` iteration applied to the `h`-hop
one (the loop runs exactly `hops` times, with no fixed-point early exit). -/
theorem hop_monotonicity (m : CodeMapModel) (seeds : List String) (h : Nat) :
    ((lensFromSeeds seeds m h).functions.getD []).length ≤
      ((lensFromSeeds seeds m (h + 1)).functions.getD []).length ∧
    keepAfter m.functions seeds.dedup h ⊆ keepAfter m.functions seeds.dedup (h + 1) ∧
    keepAfter m.functions seeds.dedup (h + 1) =
      stepKeep m.functions (keepAfter m.functions seeds.dedup h) := by
  have hsub : keepAfter m.functions seeds.dedup h ⊆ keepAfter m.functions seeds.dedup (h + 1) := by
    show keepAfter m.functions seeds.dedup h ⊆ stepKeep m.functions (keepAfter m.functions seeds.dedup h)
    exact Finset.subset_union_left
  refine ⟨?_, hsub, rfl⟩
  simp only [lensFromSeeds, neighborsFns, Option.getD_some]
  exact filter_length_mono m.functions (fun kv hk => by
    simp only [decide_eq_true_eq] at hk ⊢
    exact hsub hk)

/-! ### C7 -/

/-- C7: merging the same trace twice is the same as merging it once; the
`runtime.hit_count` equals the number of distinct `func` values of the
trace's events after either run, and the per-entry update can only set
`runtime_hit` to `True` (never reset it). -/
theorem merge_trace_idempotent (l : LensDoc) (t : TraceDoc) :
    mergeTraceIntoLens (mergeTraceIntoLens l t) t = mergeTraceIntoLens l t ∧
    (mergeTraceIntoLens l t).runtime = some (hitsOf t).length ∧
    (mergeTraceIntoLens (mergeTraceIntoLens l t) t).runtime = some (hitsOf t).length ∧
    ∀ hits kv, (markHit hits kv).2.runtime_hit = some true ∨
      (markHit hits kv).2.runtime_hit = kv.2.runtime_hit := by
  refine ⟨?_, rfl, rfl, ?_⟩
  · cases l with
    | mk s fns rt =>
      simp only [mergeTraceIntoLens, Option.map_map]
      congr 1
      cases fns with
      | none => rfl
      | some fs =>
        simp [Function.comp, List.map_map, markHit_idem]
  · intro hits kv
    by_cases hc : lastSeg kv.1 ∈ hits ∨ kv.1 ∈ hits
    · left; simp [markHit, hc]
    · right; simp [markHit, hc]

/-! ### C10 -/

/-- C10: `merge_trace_into_lens` and `rank_by_error_proximity` preserve the
set of qualified-name keys of `lens["functions"]` and each function's `file`
and `calls` fields; merge additionally preserves `error_proximity` and the
seeds, writing only `runtime_hit` of matched entries and the top-level
`runtime` field, while rank preserves `runtime_hit`, the seeds and `runtime`,
writing only `error_proximity`. -/
theorem merge_rank_frame (l : LensDoc) (t : TraceDoc) :
    lensKeys (mergeTraceIntoLens l t) = lensKeys l ∧
    lensKeys (rankByErrorProximity l) = lensKeys l ∧
    (mergeTraceIntoLens l t).lensSeeds = l.lensSeeds ∧
    (rankByErrorProximity l).lensSeeds = l.lensSeeds ∧
    (rankByErrorProximity l).runtime = l.runtime ∧
    (∀ hits kv, (markHit hits kv).1 = kv.1 ∧
      (markHit hits kv).2.file = kv.2.file ∧
      (markHit hits kv).2.calls = kv.2.calls ∧
      (markHit hits kv).2.error_proximity = kv.2.error_proximity) ∧
    (∀ seeds kv, (rankEntry seeds kv).1 = kv.1 ∧
      (rankEntry seeds kv).2.file = kv.2.file ∧
      (rankEntry seeds kv).2.calls = kv.2.calls ∧
      (rankEntry seeds kv).2.runtime_hit = kv.2.runtime_hit) := by
  refine ⟨?_, ?_, rfl, rfl, rfl, ?_, ?_⟩
  · simp only [lensKeys, mergeTraceIntoLens, Option.map_map]
    cases l.functions with
    | none => rfl
    | some fs => simp [Function.comp, List.map_map, markHit_fst]
  · simp only [lensKeys, rankByErrorProximity, Option.map_map]
    cases l.functions with
    | none => rfl
    | some fs => simp [Function.comp, List.map_map, rankEntry]
  · intro hits kv
    by_cases hc : lastSeg kv.1 ∈ hits ∨ kv.1 ∈ hits
    · simp [markHit, hc]
    · simp [markHit, hc]
  · intro seeds kv
    simp [rankEntry]

/-! ### C2 -/

/-- A one-function code map used as concrete input. -/
def mapC2 : CodeMapModel := ⟨"python", [("a:f", ⟨some "a.py", some ["g"], none, none⟩)]⟩

/-- C2 fails on the code: `lens_from_seeds` performs no seed fallback, so
building a lens from an empty seed set over a non-empty map yields `0` seeds
(not `min(10, |functions|) = 1`) and a vacuously empty function dict. -/
theorem lens_from_seeds_empty_counterexample :
    (lensFromSeeds [] mapC2 2).lensSeeds = some [] ∧
    ((lensFromSeeds [] mapC2 2).lensSeeds.getD []).length ≠ min 10 mapC2.functions.length ∧
    (lensFromSeeds [] mapC2 2).functions = some [] := by
  refine ⟨rfl, by decide, ?_⟩
  decide

/-- With no seeds the kept set of `_neighbors` stays empty through every hop. -/
theorem keepAfter_nil_seeds (fns : List (String × FnRec)) (n : Nat) :
    keepAfter fns [] n = ∅ := by
  induction n with
  | zero =>
    simp [keepAfter, initKeep, seedHitB, Finset.filter_eq_empty_iff]
  | succ k ih =>
    simp [keepAfter, ih, stepKeep, fwdB, bwdB, Finset.filter_eq_empty_iff]

/-- C2 amended: the seed fallback lives in `lens_from_issue` only.  When
candidate extraction from the issue text yields nothing and the map's keys are
distinct, the returned lens has exactly `min(10, |map.functions|)` seeds;
`lens_from_seeds` applies no fallback, so with an empty seed list it returns a
lens with no seeds and an empty function dict. -/
theorem seed_fallback_only_in_lens_from_issue (fns : List (String × FnRec)) (h : Nat)
    (hnd : (fns.map Prod.fst).Nodup) (hne : fns ≠ []) :
    ((lensFromIssueWith [] ⟨"python", fns⟩ h).lensSeeds.getD []).length =
      min 10 fns.length ∧
    lensFromSeeds [] ⟨"python", fns⟩ h = ⟨some [], some [], none⟩ := by
  constructor
  · simp only [lensFromIssueWith, List.isEmpty_nil, if_pos]
    have hperm : (fns.mergeSort (fun a b =>
        decide ((b.2.calls.getD []).length ≤ (a.2.calls.getD []).length))).Perm fns :=
      List.mergeSort_perm fns _
    have hnd2 : ((fns.mergeSort (fun a b =>
        decide ((b.2.calls.getD []).length ≤ (a.2.calls.getD []).length))).map Prod.fst).Nodup :=
      ((hperm.map Prod.fst).nodup_iff).mpr hnd
    have hnd3 : (fallbackRanked fns).Nodup := by
      unfold fallbackRanked
      rw [List.map_take]
      exact hnd2.sublist (List.take_sublist _ _)
    simp only [Option.getD_some]
    rw [List.dedup_eq_self.mpr hnd3]
    unfold fallbackRanked
    rw [List.length_map, List.length_take, List.length_mergeSort]
  · have hk := keepAfter_nil_seeds fns h
    simp [lensFromSeeds, neighborsFns, hk]

/-- Concrete two-function map exercising the `lens_from_issue` fallback. -/
def fnsW2 : List (String × FnRec) :=
  [("a:f", ⟨some "a.py", some ["g"], none, none⟩), ("a:g", ⟨some "a.py", some [], none, none⟩)]

theorem seed_fallback_only_in_lens_from_issue_witness :
    (fnsW2.map Prod.fst).Nodup ∧ fnsW2 ≠ [] ∧
    ((lensFromIssueWith [] ⟨"python", fnsW2⟩ 1).lensSeeds.getD []).length =
      min 10 fnsW2.length :=
  ⟨by decide, by decide,
    (seed_fallback_only_in_lens_from_issue fnsW2 1 (by decide) (by decide)).1⟩

/-! ### C4 -/

/-- Two functions with overlapping call lists but no substring relation. -/
def fnsC4 : List (String × FnRec) :=
  [("a:f", ⟨some "a.py", some ["g"], none, none⟩), ("b:x", ⟨some "b.py", some ["g"], none, none⟩)]

/-- C4 fails on the code: `b:x` is not yet kept after seeding on `a:f`, its
own calls list `["g"]` overlaps the kept function's calls list `["g"]`, yet
one hop of `_neighbors` does not add it — the else branch tests whether a kept
function's callee *name* occurs in `q`, not whether the call lists overlap. -/
theorem neighbors_overlap_rule_counterexample :
    "a:f" ∈ initKeep fnsC4 ["a:f"] ∧
    "b:x" ∉ initKeep fnsC4 ["a:f"] ∧
    (⟨some "a.py", some ["g"], none, none⟩ : FnRec).calls = some ["g"] ∧
    (⟨some "b.py", some ["g"], none, none⟩ : FnRec).calls = some ["g"] ∧
    "b:x" ∉ keepAfter fnsC4 ["a:f"] 1 := by
  refine ⟨by decide, by decide, rfl, rfl, by decide⟩

/-- C4 amended: during a hop, a not-yet-kept function `q` is added by the
else branch when some already-kept function has a callee name `c` that occurs
in `q`'s qualified name as a substring (`c in q`) — not when the two call
lists overlap. -/
theorem neighbors_else_branch_substring_rule (fns : List (String × FnRec))
    (keep : Finset String) (q : String)
    (hq : q ∈ (fns.map Prod.fst).toFinset)
    (hw : ∃ k rec c, (k, rec) ∈ fns ∧ k ∈ keep ∧ c ∈ rec.calls.getD [] ∧
      occursIn c q = true) :
    q ∈ stepKeep fns keep := by
  obtain ⟨k, rec, c, hkm, hkk, hcm, hocc⟩ := hw
  refine Finset.mem_union_right _ (Finset.mem_filter.mpr ⟨hq, ?_⟩)
  have hf : fwdB fns keep q = true := by
    rw [fwdB, List.any_eq_true]
    refine ⟨(k, rec), hkm, ?_⟩
    rw [Bool.and_eq_true, List.any_eq_true]
    exact ⟨decide_eq_true hkk, ⟨c, hcm, by rw [Bool.or_eq_true]; right; exact hocc⟩⟩
  rw [hf, Bool.true_or]

/-- A map where the kept function's callee name occurs in another key. -/
def fnsC4b : List (String × FnRec) :=
  [("a:f", ⟨some "a.py", some ["g"], none, none⟩), ("b:gx", ⟨some "b.py", some [], none, none⟩)]

theorem neighbors_else_branch_substring_rule_witness :
    "b:gx" ∈ (fnsC4b.map Prod.fst).toFinset ∧
    "b:gx" ∈ stepKeep fnsC4b {"a:f"} :=
  ⟨by decide,
    neighbors_else_branch_substring_rule fnsC4b {"a:f"} "b:gx" (by decide)
      ⟨"a:f", ⟨some "a.py", some ["g"], none, none⟩, "g", by decide, by decide,
        by decide⟩⟩

/-! ### C1 -/

/-- The score formula as the claim states it: the name-similarity term uses
the character set of `short(s)`, the last `":"`-delimited segment of the
seed. -/
def claimScoreC1 (seeds : List String) (q : String) (m : FnRec) : ℚ :=
  (if seeds.any (fun s => occursIn s q) then 2 else 0) +
  (if m.runtime_hit = some true then 3 / 2 else 0) +
  (1 / 2) * (seeds.map (fun s => jacc (charSet (lastSeg q)) (charSet (lastSeg s)))).sum

/-- The score formula the code actually computes, in closed form: identical
except that the name-similarity term uses the character set of the *whole*
seed string `s`. -/
def rankScoreSpec (seeds : List String) (q : String) (m : FnRec) : ℚ :=
  (if seeds.any (fun s => occursIn s q) then 2 else 0) +
  (if m.runtime_hit = some true then 3 / 2 else 0) +
  (1 / 2) * (seeds.map (fun s => jacc (charSet (lastSeg q)) (charSet s))).sum

/-- The closed-form per-entry update corresponding to `rankEntry`. -/
def rankEntrySpec (seeds : List String) (kv : String × FnRec) : String × FnRec :=
  (kv.1, { kv.2 with error_proximity := some (round3 (rankScoreSpec seeds kv.1 kv.2)) })

/-- A one-function lens whose single seed contains a `":"`. -/
def recXA : FnRec := ⟨some "x.py", some [], none, none⟩

def lensC1 : LensDoc := ⟨some ["aa:a"], some [("x:a", recXA)], none⟩

theorem jacc_a_aa : jacc (charSet (lastSeg "x:a")) (charSet "aa:a") = 1 / 2 := by
  have h0 : lastSeg "x:a" = "a" := by decide
  have h1 : (charSet "a" ∩ charSet "aa:a").card = 1 := by decide
  have h2 : (charSet "a" ∪ charSet "aa:a").card = 2 := by decide
  rw [h0, jacc, h1, h2]
  norm_num

theorem jacc_a_a : jacc (charSet (lastSeg "x:a")) (charSet (lastSeg "aa:a")) = 1 := by
  have h0 : lastSeg "x:a" = "a" := by decide
  have h0b : lastSeg "aa:a" = "a" := by decide
  have h1 : (charSet "a" ∩ charSet "a").card = 1 := by decide
  have h2 : (charSet "a" ∪ charSet "a").card = 1 := by decide
  rw [h0, h0b, jacc, h1, h2]
  norm_num

theorem rankScore_lensC1 : rankScore ["aa:a"] "x:a" recXA = 1 / 4 := by
  have hany : (["aa:a"].any (fun s => occursIn s "x:a")) = false := by decide
  have hrt : recXA.runtime_hit = (none : Option Bool) := rfl
  rw [rankScore]
  simp only [hany, hrt, Bool.false_eq_true, if_false,
    if_neg (by decide : ¬ ((none : Option Bool) = some true)), List.foldl, jacc_a_aa]
  norm_num

/-- C1 fails on the code: for the lens with seed `"aa:a"` and function
`"x:a"`, `rank_by_error_proximity` stores `0.25` (jaccard of the short name
`"a"` against the characters of the whole seed `"aa:a"`), while the claimed
formula — jaccard against the characters of `short("aa:a") = "a"` — rounds to
`0.5`. -/
theorem rank_short_seed_formula_counterexample :
    (rankByErrorProximity lensC1).functions =
      some [("x:a", { recXA with error_proximity := some (1 / 4) })] ∧
    round3 (claimScoreC1 ["aa:a"] "x:a" recXA) = 1 / 2 ∧
    ((1 : ℚ) / 4) ≠ 1 / 2 := by
  refine ⟨?_, ?_, by norm_num⟩
  · have hded : ((["aa:a"] : List String).dedup) = ["aa:a"] := by decide
    have hr3 : round3 (1 / 4 : ℚ) = 1 / 4 := by
      rw [round3]; norm_num [round_eq]
    simp only [rankByErrorProximity, lensC1, Option.getD_some, hded]
    simp [rankEntry, rankScore_lensC1, hr3]
    rw [round3]
    norm_num [round_eq]
  · have hany : (["aa:a"].any (fun s => occursIn s "x:a")) = false := by decide
    have hrt : recXA.runtime_hit = (none : Option Bool) := rfl
    rw [claimScoreC1]
    simp only [hany, hrt, Bool.false_eq_true, if_false,
      if_neg (by decide : ¬ ((none : Option Bool) = some true)),
      List.map_cons, List.map_nil, jacc_a_a]
    rw [round3]
    norm_num [round_eq]

/-- C1 amended: `rank_by_error_proximity` sets every function's
`error_proximity` to the rounded score `+2.0` on a seed substring match,
`+1.5` on a truthy `runtime_hit`, plus `0.5 * jaccard` of the character sets
of the short function name and of each *whole* seed string (not its last
`":"`-segment), summed over the deduplicated seeds. -/
theorem rank_scores_whole_seed (l : LensDoc) :
    rankByErrorProximity l =
      { l with functions :=
          l.functions.map (fun fns => fns.map (rankEntrySpec ((l.lensSeeds.getD []).dedup))) } := by
  have hsc : ∀ seeds q m, rankScore seeds q m = rankScoreSpec seeds q m := by
    intro seeds q m
    rw [rankScore, rankScoreSpec]
    rw [foldl_add_sum (fun s => 1 / 2 * jacc (charSet (lastSeg q)) (charSet s)) seeds]
    rw [← List.sum_map_mul_left]
    by_cases h1 : (seeds.any fun s => occursIn s q) = true <;>
      by_cases h2 : m.runtime_hit = some true <;>
        simp [h1, h2]
  have hent : ∀ seeds kv, rankEntry seeds kv = rankEntrySpec seeds kv := by
    intro seeds kv
    simp [rankEntry, rankEntrySpec, hsc]
  simp only [rankByErrorProximity]
  congr 1
  cases l.functions with
  | none => rfl
  | some fs => simp [hent]

/-! ### C9 -/

/-- A lens document missing both the `lens` and `functions` keys. -/
def lensC9 : LensDoc := ⟨none, none, none⟩

/-- A trace whose only event is missing the `func` field. -/
def traceC9 : TraceDoc := ⟨some [⟨some "call", none, some "a.py"⟩], some 0⟩

/-- C9 fails on the code: fed a lens with no `functions` key and a trace
whose only event has no `func` field, `merge_trace_into_lens` raises nothing
and silently returns the degraded document (no functions key, hit count `0`),
and `rank_by_error_proximity` likewise returns without error — the engine
never fails fast on missing keys. -/
theorem merge_missing_keys_counterexample :
    mergeTraceIntoLens lensC9 traceC9 = ⟨none, none, some 0⟩ ∧
    rankByErrorProximity lensC9 = lensC9 := by
  constructor <;> rfl

/-- Filtering away the events that lack a `func` field does not change
`merge_trace_into_lens`. -/
theorem hitsOf_drop_funcless (t : TraceDoc) :
    hitsOf t = hitsOf ⟨some ((t.events.getD []).filter (fun e => e.func.isSome)), t.duration_sec⟩ := by
  rw [hitsOf, hitsOf, Option.getD_some]
  congr 1
  induction (t.events.getD []) with
  | nil => rfl
  | cons e es ih =>
    cases he : e.func with
    | none => simp [List.filterMap_cons, List.filter_cons, he, ih]
    | some f => simp [List.filterMap_cons, List.filter_cons, he, ih]

/-- C9 amended: missing keys are defaulted, never fatal — a missing `events`
key merges as an empty event list (hit count `0`, nothing marked), a missing
`functions` key stays missing through merge and makes rank the identity, and
events without a `func` field are simply skipped. -/
theorem merge_rank_default_missing_keys (l : LensDoc) (t : TraceDoc) :
    (t.events = none → mergeTraceIntoLens l t = { l with runtime := some 0 }) ∧
    (l.functions = none →
      (mergeTraceIntoLens l t).functions = none ∧ rankByErrorProximity l = l) ∧
    mergeTraceIntoLens l t =
      mergeTraceIntoLens l ⟨some ((t.events.getD []).filter (fun e => e.func.isSome)), t.duration_sec⟩ := by
  refine ⟨?_, ?_, ?_⟩
  · intro he
    have hmk : ∀ kv : String × FnRec, markHit [] kv = kv := by
      intro kv; simp [markHit]
    have hid : markHit [] = id := funext hmk
    simp [mergeTraceIntoLens, hitsOf, he, hid]
  · intro hf
    constructor
    · simp [mergeTraceIntoLens, hf]
    · cases l with
      | mk s fns rt => simp at hf; simp [rankByErrorProximity, hf]
  · rw [mergeTraceIntoLens, mergeTraceIntoLens, ← hitsOf_drop_funcless]

theorem merge_rank_default_missing_keys_witness :
    mergeTraceIntoLens lensC9 ⟨none, none⟩ = { lensC9 with runtime := some 0 } ∧
    rankByErrorProximity lensC9 = lensC9 :=
  ⟨(merge_rank_default_missing_keys lensC9 ⟨none, none⟩).1 rfl,
    ((merge_rank_default_missing_keys lensC9 ⟨none, none⟩).2.1 rfl).2⟩

/-! ### C3 -/

/-- A concrete parse function: one record per file, no calls. -/
def parse0 : String → String → List (String × FnRec) :=
  fun p _ => [("f", ⟨some p, some [], none, none⟩)]

/-- A concrete (non-injective) content hash used at concrete inputs. -/
def hash0 : String → Nat := fun s => s.length

def filesC3 : List (String × FileState) := [("a.py", ⟨0, ""⟩)]

/-- C3 fails on the code: with caching enabled over a corrupt or unavailable
backing store, `build_python_map` propagates the `sqlite3` failure instead of
degrading to cache misses — the scan aborts and returns no CodeMap. -/
theorem cache_corruption_fatal_counterexample :
    buildPythonMap hash0 parse0 filesC3 true CacheStore.corrupt =
      Except.error "cache unavailable or corrupt" := by
  rfl

/-- C3 amended: `build_python_map` has no handler around `_open_cache` or the
cache preload, so with `use_cache` a corrupt/unavailable store always aborts
the scan with the store's error; only when caching is disabled is the store
never consulted and the scan always completes with a full map. -/
theorem cache_corruption_is_fatal (hash : String → Nat)
    (parse : String → String → List (String × FnRec)) (files : List (String × FileState)) :
    buildPythonMap hash parse files true CacheStore.corrupt =
      Except.error "cache unavailable or corrupt" ∧
    ∀ store, buildPythonMap hash parse files false store =
      Except.ok ⟨"python", (files.map (fun pf => qualifyRecords pf.1 (parse pf.1 pf.2.content))).flatten⟩ := by
  exact ⟨rfl, fun store => rfl⟩

/-! ### C5 -/

/-- A cache row is well formed for a path when it was produced by storing a
parse: its size and digest come from some content whose parse is the stored
data.  Every row the scanner itself writes (`freshRow`) has this shape. -/
def rowWellFormed (hash : String → Nat) (parse : String → String → List (String × FnRec))
    (p : String) (r : CacheRow) : Prop :=
  ∃ c : String, r.size = c.length ∧ r.sha = hash c ∧ r.data = parse p c

/-- C5: assuming the stored row is well formed and the digest has no
collision against the file's current content, the per-file scan step returns
exactly the records of a fresh parse in every case; it skips re-parsing
(writes no row) precisely when the stored `(mtime, size, sha)` all match the
freshly computed signature, and whenever any of the three differs (or there
is no row) it re-parses and overwrites the entry for that path with the fresh
row. -/
theorem cache_validity_and_overwrite (hash : String → Nat)
    (parse : String → String → List (String × FnRec))
    (rows : List (String × CacheRow)) (p : String) (st : FileState)
    (hwf : ∀ r, lookupRow rows p = some r → rowWellFormed hash parse p r)
    (hcoll : ∀ c : String, hash c = hash st.content → c = st.content) :
    (processFile hash parse rows p st).1 = qualifyRecords p (parse p st.content) ∧
    ((∃ r, lookupRow rows p = some r ∧ sigMatches hash r st = true) ↔
      (processFile hash parse rows p st).2 = none) ∧
    ((processFile hash parse rows p st).2 ≠ none →
      (processFile hash parse rows p st).2 = some (freshRow hash parse p st)) := by
  rcases hrow : lookupRow rows p with _ | r
  · exact ⟨by simp [processFile, hrow], by simp [processFile, hrow],
      by simp [processFile, hrow]⟩
  · by_cases hm : sigMatches hash r st = true
    · obtain ⟨c, hsize, hsha, hdata⟩ := hwf r hrow
      have hs := hm
      rw [sigMatches] at hs
      simp only [Bool.and_eq_true, beq_iff_eq] at hs
      have hc : c = st.content := hcoll c (by rw [← hsha, hs.2])
      subst hc
      exact ⟨by simp [processFile, hrow, hm, hdata], by simp [processFile, hrow, hm],
        by simp [processFile, hrow, hm]⟩
    · exact ⟨by simp [processFile, hrow, hm], by simp [processFile, hrow, hm],
      by simp [processFile, hrow, hm]⟩

/-- A cache row produced by an earlier scan of the empty file at `a.py`. -/
def rowW : CacheRow := ⟨5, 0, 0, parse0 "a.py" ""⟩

def rowsW : List (String × CacheRow) := [("a.py", rowW)]

def stW : FileState := ⟨5, ""⟩

theorem str_of_length_zero (c : String) (h : c.length = 0) : c = "" := by
  cases c with
  | mk data =>
    simp [String.length] at h
    simp [h]

theorem cache_validity_and_overwrite_witness :
    (processFile hash0 parse0 rowsW "a.py" stW).1 =
      qualifyRecords "a.py" (parse0 "a.py" stW.content) ∧
    (processFile hash0 parse0 rowsW "a.py" stW).2 = none :=
  have hwf : ∀ r, lookupRow rowsW "a.py" = some r → rowWellFormed hash0 parse0 "a.py" r := by
    intro r hr
    have : rowW = r := by
      simpa [lookupRow, rowsW, List.find?] using hr
    exact this ▸ ⟨"", rfl, rfl, rfl⟩
  have hcoll : ∀ c : String, hash0 c = hash0 stW.content → c = stW.content :=
    fun c hc => str_of_length_zero c hc
  ⟨(cache_validity_and_overwrite hash0 parse0 rowsW "a.py" stW hwf hcoll).1,
    (cache_validity_and_overwrite hash0 parse0 rowsW "a.py" stW hwf hcoll).2.1.mp
      ⟨rowW, rfl, rfl⟩⟩

/-! ### C6 -/

/-- Appending a list of callee names one by one to a function's entry. -/
def appendAll (acc : CallsAcc) (c : String) (names : List String) : CallsAcc :=
  names.foldl (fun a nm => appendCall a c nm) acc

theorem appendAll_cons (acc : CallsAcc) (c x : String) (xs : List String) :
    appendAll acc c (x :: xs) = appendAll (appendCall acc c x) c xs := rfl

theorem appendAll_append (acc : CallsAcc) (c : String) (xs ys : List String) :
    appendAll acc c (xs ++ ys) = appendAll (appendAll acc c xs) c ys := by
  simp [appendAll, List.foldl_append]

mutual
theorem visitExprV_none : ∀ (acc : CallsAcc) (e : PyExpr), visitExprV none acc e = acc
  | _, .ename _ => rfl
  | acc, .eattr b _ => visitExprV_none acc b
  | acc, .ecall f args => by
    calc visitExprV none acc (.ecall f args)
        = visitExprListV none (visitExprV none acc f) args := rfl
      _ = visitExprListV none acc args := by rw [visitExprV_none acc f]
      _ = acc := visitExprListV_none acc args
theorem visitExprListV_none : ∀ (acc : CallsAcc) (es : PyExprList), visitExprListV none acc es = acc
  | _, .enil => rfl
  | acc, .econs e t => by
    calc visitExprListV none acc (.econs e t)
        = visitExprListV none (visitExprV none acc e) t := rfl
      _ = visitExprListV none acc t := by rw [visitExprV_none acc e]
      _ = acc := visitExprListV_none acc t
end

mutual
theorem visitExprV_some : ∀ (c : String) (acc : CallsAcc) (e : PyExpr),
    visitExprV (some c) acc e = appendAll acc c (callsExpr e)
  | _, _, .ename _ => rfl
  | c, acc, .eattr b _ => visitExprV_some c acc b
  | c, acc, .ecall f args => by
    cases hcf : calleeName f with
    | none =>
      have h1 : visitExprV (some c) acc (.ecall f args)
          = visitExprListV (some c) (visitExprV (some c) acc f) args := by
        simp only [visitExprV, hcf]
      rw [h1, visitExprV_some c acc f, visitExprListV_some c _ args]
      simp only [callsExpr, hcf, Option.toList_none, List.nil_append, appendAll_append]
    | some nm =>
      have h1 : visitExprV (some c) acc (.ecall f args)
          = visitExprListV (some c) (visitExprV (some c) (appendCall acc c nm) f) args := by
        simp only [visitExprV, hcf]
      rw [h1, visitExprV_some c _ f, visitExprListV_some c _ args]
      simp only [callsExpr, hcf, Option.toList_some, List.singleton_append,
        appendAll_append, appendAll_cons]
theorem visitExprListV_some : ∀ (c : String) (acc : CallsAcc) (es : PyExprList),
    visitExprListV (some c) acc es = appendAll acc c (callsExprList es)
  | _, _, .enil => rfl
  | c, acc, .econs e t => by
    have h1 : visitExprListV (some c) acc (.econs e t)
        = visitExprListV (some c) (visitExprV (some c) acc e) t := rfl
    rw [h1, visitExprV_some c acc e, visitExprListV_some c _ t]
    simp only [callsExprList, appendAll_append]
end

theorem visitStmtListV_nodefs : ∀ (body : PyStmtList) (c : String) (acc : CallsAcc),
    noDefsStmts body = true →
    visitStmtListV (some c) acc body = (some c, appendAll acc c (callsStmtList body))
  | .snil, c, acc, _ => by simp [visitStmtListV, appendAll, callsStmtList]
  | .scons s t, c, acc, h => by
    have hs : noDefsStmt s = true ∧ noDefsStmts t = true := by
      simpa [noDefsStmts, Bool.and_eq_true] using h
    cases s with
    | sfun n b => exact absurd hs.1 (by simp [noDefsStmt])
    | sexpr e =>
      calc visitStmtListV (some c) acc (.scons (.sexpr e) t)
          = visitStmtListV (some c) (visitExprV (some c) acc e) t := rfl
        _ = visitStmtListV (some c) (appendAll acc c (callsExpr e)) t := by
              rw [visitExprV_some]
        _ = (some c, appendAll (appendAll acc c (callsExpr e)) c (callsStmtList t)) := by
              rw [visitStmtListV_nodefs t c _ hs.2]
        _ = (some c, appendAll acc c (callsStmtList (.scons (.sexpr e) t))) := by
              rw [callsStmtList, callsStmt, ← appendAll_append]

/-- A module consisting of a list of top-level function definitions. -/
def toProg : List (String × PyStmtList) → PyStmtList
  | [] => .snil
  | fb :: rest => .scons (.sfun fb.1 fb.2) (toProg rest)

theorem visitStmtListV_topdefs : ∀ (defs : List (String × PyStmtList)) (acc : CallsAcc),
    (∀ x ∈ defs, noDefsStmts x.2 = true) →
    visitStmtListV none acc (toProg defs) =
      (none, defs.foldl (fun a fb => appendAll (setEntry a fb.1) fb.1 (callsStmtList fb.2)) acc)
  | [], _, _ => rfl
  | fb :: rest, acc, h => by
    calc visitStmtListV none acc (toProg (fb :: rest))
        = visitStmtListV none
            ((visitStmtListV (some fb.1) (setEntry acc fb.1) fb.2).2) (toProg rest) := rfl
      _ = visitStmtListV none
            (appendAll (setEntry acc fb.1) fb.1 (callsStmtList fb.2)) (toProg rest) := by
            rw [visitStmtListV_nodefs fb.2 fb.1 _ (h fb (by simp))]
      _ = (none, (fb :: rest).foldl
            (fun a fb => appendAll (setEntry a fb.1) fb.1 (callsStmtList fb.2)) acc) := by
            rw [visitStmtListV_topdefs rest _ (fun x hx => h x (by simp [hx]))]
            rfl

theorem setEntry_absent (acc : CallsAcc) (f : String) (h : ∀ kv ∈ acc, kv.1 ≠ f) :
    setEntry acc f = acc ++ [(f, [])] := by
  have hany : acc.any (fun kv => kv.1 == f) = false := by
    rw [Bool.eq_false_iff]
    intro hc
    obtain ⟨kv, hkv, hb⟩ := List.any_eq_true.mp hc
    exact h kv hkv (by simpa using hb)
  simp [setEntry, hany]

theorem appendCall_absent (acc : CallsAcc) (f : String) (v : List String) (nm : String)
    (h : ∀ kv ∈ acc, kv.1 ≠ f) :
    appendCall (acc ++ [(f, v)]) f nm = acc ++ [(f, v ++ [nm])] := by
  rw [appendCall, List.map_append]
  congr 1
  · conv_rhs => rw [← List.map_id acc]
    apply List.map_congr_left
    intro kv hkv
    simp [h kv hkv]
  · simp

theorem appendAll_absent : ∀ (names : List String) (acc : CallsAcc) (f : String) (v : List String),
    (∀ kv ∈ acc, kv.1 ≠ f) →
    appendAll (acc ++ [(f, v)]) f names = acc ++ [(f, v ++ names)]
  | [], acc, f, v, _ => by simp [appendAll]
  | nm :: rest, acc, f, v, h => by
    rw [appendAll_cons, appendCall_absent acc f v nm h,
      appendAll_absent rest acc f (v ++ [nm]) h]
    simp

theorem foldDefs_absent : ∀ (defs : List (String × PyStmtList)) (acc : CallsAcc),
    ((defs.map Prod.fst).Nodup) →
    (∀ fb ∈ defs, ∀ kv ∈ acc, kv.1 ≠ fb.1) →
    defs.foldl (fun a fb => appendAll (setEntry a fb.1) fb.1 (callsStmtList fb.2)) acc =
      acc ++ defs.map (fun fb => (fb.1, callsStmtList fb.2))
  | [], acc, _, _ => by simp
  | fb :: rest, acc, hnd, habs => by
    have habs1 : ∀ kv ∈ acc, kv.1 ≠ fb.1 := fun kv hkv => habs fb (by simp) kv hkv
    have hnd2 : fb.1 ∉ rest.map Prod.fst ∧ (rest.map Prod.fst).Nodup := by
      rw [List.map_cons, List.nodup_cons] at hnd
      exact hnd
    have habs2 : ∀ fb' ∈ rest, ∀ kv ∈ acc ++ [(fb.1, callsStmtList fb.2)], kv.1 ≠ fb'.1 := by
      intro fb' hfb' kv hkv
      rcases List.mem_append.mp hkv with hkv | hkv
      · exact habs fb' (by simp [hfb']) kv hkv
      · simp only [List.mem_singleton] at hkv
        subst hkv
        intro hcon
        exact hnd2.1 (by rw [hcon]; exact List.mem_map_of_mem Prod.fst hfb')
    calc (fb :: rest).foldl
          (fun a fb => appendAll (setEntry a fb.1) fb.1 (callsStmtList fb.2)) acc
        = rest.foldl (fun a fb => appendAll (setEntry a fb.1) fb.1 (callsStmtList fb.2))
            (appendAll (setEntry acc fb.1) fb.1 (callsStmtList fb.2)) := rfl
      _ = rest.foldl (fun a fb => appendAll (setEntry a fb.1) fb.1 (callsStmtList fb.2))
            (acc ++ [(fb.1, callsStmtList fb.2)]) := by
            rw [setEntry_absent acc fb.1 habs1,
              appendAll_absent (callsStmtList fb.2) acc fb.1 [] habs1]
            simp
      _ = acc ++ (fb :: rest).map (fun fb => (fb.1, callsStmtList fb.2)) := by
            rw [foldDefs_absent rest _ hnd2.2 habs2]
            simp

/-- C6 amended: for a module that is a sequence of top-level function
definitions with pairwise distinct names and bodies free of nested function
definitions, `_parse_file` records for every definition exactly the bare
callee names of the call expressions of its body, in preorder (call-site)
traversal order with duplicates preserved.  (In general a call inside a
nested definition is credited to the nested function only, and calls placed
after a nested definition in the same body are dropped, because the visitor
resets its tracked function to `None` when it leaves any definition.) -/
theorem parser_records_flat_def_calls (path : String) (defs : List (String × PyStmtList))
    (hnd : (defs.map Prod.fst).Nodup)
    (hnb : ∀ x ∈ defs, noDefsStmts x.2 = true) :
    parsePyFile path (toProg defs) =
      defs.map (fun fb => (fb.1, ⟨some path, some (callsStmtList fb.2), none, none⟩)) := by
  rw [parsePyFile, visitStmtListV_topdefs defs [] hnb]
  show (defs.foldl (fun a fb => appendAll (setEntry a fb.1) fb.1 (callsStmtList fb.2)) []).map _ = _
  rw [foldDefs_absent defs [] hnd (by intro fb _ kv hkv; simp at hkv)]
  simp [List.map_map]

/-- The body `def g(): pass` followed by the call `h()`. -/
def bodyC6 : PyStmtList :=
  .scons (.sfun "g" .snil) (.scons (.sexpr (.ecall (.ename "h") .enil)) .snil)

/-- The module `def f(): def g(): pass; h()`. -/
def progC6 : PyStmtList := .scons (.sfun "f" bodyC6) .snil

/-- C6 fails on the code: in `def f(): def g(): pass; h()` the call `h()` is
textually inside `f`'s body, yet `f`'s record carries an empty calls list —
after the nested `def g` the visitor has reset `current_func` to `None`, so
the call to `h` is dropped entirely. -/
theorem parser_drops_calls_after_nested_def :
    parsePyFile "a.py" progC6 =
      [("f", ⟨some "a.py", some [], none, none⟩), ("g", ⟨some "a.py", some [], none, none⟩)] ∧
    "h" ∈ callsStmtList bodyC6 ∧
    "h" ∉ ([] : List String) := by
  refine ⟨by decide, by decide, by decide⟩

/-- Two flat top-level definitions used as the concrete witness input. -/
def defsW : List (String × PyStmtList) :=
  [("f", .scons (.sexpr (.ecall (.ename "h") .enil)) .snil), ("g", .snil)]

theorem parser_records_flat_def_calls_witness :
    (defsW.map Prod.fst).Nodup ∧ (∀ x ∈ defsW, noDefsStmts x.2 = true) ∧
    parsePyFile "w.py" (toProg defsW) =
      defsW.map (fun fb => (fb.1, ⟨some "w.py", some (callsStmtList fb.2), none, none⟩)) :=
  ⟨by decide, by decide, parser_records_flat_def_calls "w.py" defsW (by decide) (by decide)⟩
